import Mathlib

/-!
Market-intelligence price engine: a shallow embedding.

This file embeds the `market_intelligence` subsystem of the repository
(`models.py`, `signals.py`, `serializers.py`) in Lean and proves/refutes the
frozen claims about it.

Modelling conventions:

* `DecimalField` amounts are exact rationals (`ℚ`); Django decimal arithmetic
  is exact for the operations used here.
* The write path (`PriceListing.save`, `PriceListing._recalc_stats`, the
  `post_save` receiver `snapshot_price`) is modelled as explicit state passing
  over an `MIState` holding the listing row and its `PriceHistory` rows in
  insertion order.  Crucially, `market_intelligence/apps.py` registers
  `snapshot_price` for every `post_save` of `PriceListing`, so the model
  appends a history row on *every* save, including the nested
  `super().save(update_fields=("average_price", ...))` inside
  `PriceListing.save`.
* Python truthiness on `Decimal` (`agg.get("avg") or self.price`) treats both
  `None` and `0` as falsy; the model mirrors that with `orFalsy`.
* The analytics serializer uses pandas.  Bucket means are exact rationals;
  the division/`std` edge cases follow IEEE-like float semantics (`NaN`,
  `±inf`) as produced by pandas reductions, modelled by `PVal`; pandas
  `dropna`/`nlargest`/`nsmallest` drop `NaN` but keep `±inf`, and
  `Series.std()` uses the sample deviation (`ddof=1`), which is `NaN` on a
  single data point.  pandas `groupby` sorts keys ascending, `sort_values`
  sorts stably, and `idxmin` returns the first index attaining the minimum;
  a stable sort (`List.insertionSort`) and `List.argmin` model these.
-/

namespace MarketIntel

/-- Arithmetic mean of a list of rationals, `sum / len` (pandas `mean`). -/
def listMean (l : List ℚ) : ℚ := l.sum / l.length

/-! ## Write path: `PriceListing` / `PriceHistory` (models.py, signals.py) -/

/-- The mutable columns of a `PriceListing` row that matter to the claims. -/
structure Listing where
  price : ℚ
  currency : String
  average_price : ℚ
  lowest_price : ℚ
  highest_price : ℚ
  status : Bool
  note : String
deriving Repr, DecidableEq

/-- A `PriceHistory` row (for one fixed listing): the recorded price and
currency.  Rows are kept in insertion order, which is how the aggregate
queries of `_recalc_stats` see them. -/
structure HistRow where
  price : ℚ
  currency : String
deriving Repr, DecidableEq

/-- The persistent state for a single listing: the `PriceListing` row plus
all its `PriceHistory` rows in insertion order. -/
structure MIState where
  listing : Listing
  history : List HistRow
deriving Repr, DecidableEq

/-- `Avg("price")` over the history rows: `None` on an empty set, otherwise
the exact mean. -/
def aggAvg (h : List HistRow) : Option ℚ :=
  if h = [] then none else some (listMean (h.map (·.price)))

/-- `Min("price")` over the history rows: `None` on an empty set. -/
def aggMin : List HistRow → Option ℚ
  | [] => none
  | r :: t =>
    some (match aggMin t with
      | none => r.price
      | some m => min r.price m)

/-- `Max("price")` over the history rows: `None` on an empty set. -/
def aggMax : List HistRow → Option ℚ
  | [] => none
  | r :: t =>
    some (match aggMax t with
      | none => r.price
      | some m => max r.price m)

/-- Python `x or fallback` applied to an aggregate result: `None` (empty
history) and the falsy `Decimal("0")` both select the fallback. -/
def orFalsy (v : Option ℚ) (fallback : ℚ) : ℚ :=
  match v with
  | none => fallback
  | some q => if q = 0 then fallback else q

/-- `PriceListing._recalc_stats`: recompute the three aggregate fields from
the listing's history, falling back to `self.price` on a falsy aggregate. -/
def recalcStats (l : Listing) (h : List HistRow) : Listing :=
  { l with
      average_price := orFalsy (aggAvg h) l.price
      lowest_price := orFalsy (aggMin h) l.price
      highest_price := orFalsy (aggMax h) l.price }

/-- The `post_save` receiver `snapshot_price` (signals.py): fired on every
save of a `PriceListing`, it appends a history row with the instance's
current price and `instance.currency or "GHS"`. -/
def signalRow (l : Listing) : HistRow :=
  ⟨l.price, if l.currency = "" then "GHS" else l.currency⟩

/-- `PriceListing.save`: on create, seed the aggregates with the price; the
`super().save(...)` fires `snapshot_price`; if the row is new or
`update_fields` contains `"price"`, explicitly append a history row,
recompute the aggregates over the history seen at that point, and persist
them with a nested `super().save(update_fields=...)` — which fires
`snapshot_price` once more. -/
def savePriceListing (s : MIState) (isNew : Bool)
    (updateFields : Option (List String)) : MIState :=
  let l0 := s.listing
  let l1 :=
    if isNew then
      let initial := if l0.price = 0 then (0 : ℚ) else l0.price
      { l0 with
          average_price := initial
          lowest_price := initial
          highest_price := initial }
    else l0
  let h1 := s.history ++ [signalRow l1]
  if isNew = true ∨ "price" ∈ updateFields.getD [] then
    let h2 := h1 ++ [⟨l1.price, l1.currency⟩]
    let l2 := recalcStats l1 h2
    let h3 := h2 ++ [signalRow l2]
    ⟨l2, h3⟩
  else
    ⟨l1, h1⟩

/-- A fresh, never-saved `PriceListing` instance (aggregates not yet set;
Django would leave them unset until `save` seeds them). -/
def newListing (price : ℚ) (currency : String) : Listing :=
  ⟨price, currency, 0, 0, 0, true, ""⟩

/-- Creating a listing: a first save with `self._state.adding = True`. -/
def createListing (price : ℚ) (currency : String) : MIState :=
  savePriceListing ⟨newListing price currency, []⟩ true none

/-- A price update performed as the spec's `update_price` intends: assign the
new price and save with `update_fields=["price"]`. -/
def updatePriceSave (s : MIState) (p : ℚ) : MIState :=
  savePriceListing ⟨{ s.listing with price := p }, s.history⟩ false
    (some ["price"])

/-- A note-only edit: assign the note and save without `update_fields`
(the default for Django admin and DRF `serializer.save()`). -/
def noteSave (s : MIState) (n : String) : MIState :=
  savePriceListing ⟨{ s.listing with note := n }, s.history⟩ false none

/-- A status toggle (deactivate/reactivate): assign `status` and save. -/
def statusSave (s : MIState) (b : Bool) : MIState :=
  savePriceListing ⟨{ s.listing with status := b }, s.history⟩ false
    (some ["status"])

/-- Create a listing, then apply a sequence of price updates. -/
def runUpdates (p0 : ℚ) (c : String) (ups : List ℚ) : MIState :=
  ups.foldl (fun s p => updatePriceSave s p) (createListing p0 c)

/-- The invariant maintained by creation and every
`update_fields=["price"]` save, with all prices positive: the history is
non-empty and positive, the stored `lowest_price`/`highest_price` are the
exact minimum/maximum over *all* history rows, and the stored
`average_price` is the exact mean over all rows *except the last* — the
recompute runs before the final signal-append of the nested save. -/
def GoodState (s : MIState) : Prop :=
  s.history ≠ [] ∧ (∀ r ∈ s.history, 0 < r.price) ∧
  aggMin s.history = some s.listing.lowest_price ∧
  aggMax s.history = some s.listing.highest_price ∧
  s.listing.average_price =
    listMean ((s.history.dropLast).map (·.price))

/-! ## Validation (`PriceListing.clean`, `ListingSerializer.validate`) -/

/-- `PriceListing.clean` / `ListingSerializer.validate`: reject unless
exactly one of product/service is set, then reject unless town or market is
set.  The four booleans are the truthiness of the four references. -/
def cleanListing (hasProduct hasService hasTown hasMarket : Bool) :
    Except String Unit :=
  if hasProduct = hasService then
    Except.error "Exactly one of product OR service must be provided."
  else if ¬(hasTown || hasMarket) then
    Except.error "A listing needs a town and/or a market reference."
  else
    Except.ok ()

/-! ## Analytics (`ListingAnalyticsSerializer`, serializers.py)

A history snapshot is the `(price, recorded_at)` projection of the listing's
`PriceHistory` rows ordered by `recorded_at`; `_history_df` derives `year`,
the three-letter month label and the `"YYYYQn"` quarter label from the
timestamp, so a snapshot entry is modelled by its price, year and calendar
month number. -/

/-- One row of the analytics DataFrame: price plus the calendar fields the
timestamp is broken into. -/
structure PricePoint where
  price : ℚ
  year : Int
  month : Nat
deriving Repr, DecidableEq

/-- `ts.dt.month_name().str[:3]`: three-letter month label. -/
def monthName : Nat → String
  | 1 => "Jan"
  | 2 => "Feb"
  | 3 => "Mar"
  | 4 => "Apr"
  | 5 => "May"
  | 6 => "Jun"
  | 7 => "Jul"
  | 8 => "Aug"
  | 9 => "Sep"
  | 10 => "Oct"
  | 11 => "Nov"
  | 12 => "Dec"
  | _ => ""

/-- The fixed calendar reindexing order used by `get_monthly_curve`. -/
def calendarOrder : List String :=
  ["Jan", "Feb", "Mar", "Apr", "May", "Jun",
   "Jul", "Aug", "Sep", "Oct", "Nov", "Dec"]

/-- The quarter number of a calendar month (1–12 → 1–4). -/
def quarterIndex (m : Nat) : Nat := (m - 1) / 3 + 1

/-- `ts.dt.to_period("Q").astype(str)`: the `"YYYYQn"` quarter label. -/
def quarterLabel (e : PricePoint) : String :=
  toString e.year ++ "Q" ++ toString (quarterIndex e.month)

/-- The month label of an entry. -/
def monthLabel (e : PricePoint) : String := monthName e.month

/-- Lexicographic code-point comparison of character lists — the order
Python/pandas use on strings (`sort_values` on an object column of str,
sorted `groupby` keys). -/
def charListLeB : List Char → List Char → Bool
  | [], _ => true
  | _ :: _, [] => false
  | a :: as, b :: bs =>
    if a.toNat < b.toNat then true
    else if b.toNat < a.toNat then false
    else charListLeB as bs

/-- Code-point-lexicographic `≤` on strings (pandas string ordering). -/
def strLeB (a b : String) : Bool := charListLeB a.data b.data

/-- `strLeB` as a relation. -/
def strLe (a b : String) : Prop := strLeB a b = true

instance : DecidableRel strLe := fun a b => by
  unfold strLe; infer_instance

/-- pandas `groupby(key)` over the snapshot: the distinct key values sorted
ascending by `r`, each paired with the prices of its members in snapshot
order.  (`groupby` sorts group keys ascending by default.) -/
def groupsBy {K : Type} [DecidableEq K] (r : K → K → Prop) [DecidableRel r]
    (key : PricePoint → K) (l : List PricePoint) : List (K × List ℚ) :=
  (((l.map key).dedup).insertionSort r).map
    (fun k => (k, (l.filter (fun e => key e = k)).map (·.price)))

/-- IEEE-ish banker's rounding of `q` to an integer (Python `round`). -/
def roundHalfEven (q : ℚ) : ℤ :=
  if q - ⌊q⌋ < 1 / 2 then ⌊q⌋
  else if q - ⌊q⌋ > 1 / 2 then ⌊q⌋ + 1
  else if ⌊q⌋ % 2 = 0 then ⌊q⌋ else ⌊q⌋ + 1

/-- `round(x, n)` for the display values of the curves. -/
def roundTo (n : ℕ) (q : ℚ) : ℚ := (roundHalfEven (q * 10 ^ n) : ℚ) / 10 ^ n

/-- Mean price of each quarter, quarters ascending by label (pandas
`groupby("quarter")["price"].mean()`; `"YYYYQn"` labels sort
chronologically). -/
def quarterMeans (l : List PricePoint) : List (String × ℚ) :=
  (groupsBy strLe quarterLabel l).map (fun g => (g.1, listMean g.2))

/-- The mean price over the snapshot entries of one quarter label. -/
def qMeanOf (l : List PricePoint) (k : String) : ℚ :=
  listMean ((l.filter (fun e => quarterLabel e = k)).map (·.price))

/-- `get_quarterly_curve`: `[]` on an empty snapshot, else the quarter means
in ascending label order, rounded to 2 decimals. -/
def getQuarterlyCurve (l : List PricePoint) : List (String × ℚ) :=
  if l = [] then []
  else (quarterMeans l).map (fun g => (g.1, roundTo 2 g.2))

/-- `get_monthly_curve`: group across all years by month label, mean per
label, reindexed into calendar order with absent months dropped. -/
def getMonthlyCurve (l : List PricePoint) : List (String × ℚ) :=
  if l = [] then []
  else
    calendarOrder.filterMap (fun mn =>
      let ps := (l.filter (fun e => monthLabel e = mn)).map (·.price)
      if ps = [] then none else some (mn, roundTo 2 (listMean ps)))

/-- `get_top_quarter_overall`: `None` on an empty snapshot, else `idxmin`
over the quarter means — the first (and, the index being sorted, earliest)
label attaining the lowest mean. -/
def getTopQuarterOverall (l : List PricePoint) : Option String :=
  if l = [] then none
  else ((quarterMeans l).argmin (·.2)).map (·.1)

/-- `get_top_quarter_recent`: the same computation restricted to the rows of
the maximum year present; `None` if the snapshot or that restriction is
empty. -/
def getTopQuarterRecent (l : List PricePoint) : Option String :=
  if l = [] then none
  else
    match (l.map (·.year)).max? with
    | none => none
    | some y =>
      let recent := l.filter (fun e => e.year = y)
      if recent = [] then none
      else ((quarterMeans recent).argmin (·.2)).map (·.1)

/-- A pandas float cell: a finite (exactly represented) value, `NaN`, or a
signed infinity. -/
inductive PVal where
  | num : ℚ → PVal
  | nan : PVal
  | inf : PVal
  | ninf : PVal
deriving Repr, DecidableEq

/-- Float division of finite values: `0/0` is `NaN`, `x/0` is `±inf` for
`x ≠ 0`, otherwise exact. -/
def fdiv (a b : ℚ) : PVal :=
  if b = 0 then
    if a = 0 then PVal.nan else if 0 < a then PVal.inf else PVal.ninf
  else PVal.num (a / b)

/-- Multiply a float cell by 100 (`NaN` and `±inf` absorb). -/
def pmul100 : PVal → PVal
  | PVal.num q => PVal.num (q * 100)
  | v => v

/-- `round(x, 1)` on a float cell (`NaN`/`±inf` unchanged). -/
def pround1 : PVal → PVal
  | PVal.num q => PVal.num (roundTo 1 q)
  | v => v

/-- The `sort_values(["year", "month"])` key order: year ascending, then the
month *label string* ascending (i.e. alphabetically, not calendar order). -/
def ymLe (a b : Int × String) : Prop :=
  a.1 < b.1 ∨ (a.1 = b.1 ∧ strLe a.2 b.2)

instance : DecidableRel ymLe := fun a b => by
  unfold ymLe; infer_instance

/-- Strict version of `ymLe`. -/
def ymLt (a b : Int × String) : Prop :=
  a.1 < b.1 ∨ (a.1 = b.1 ∧ strLe a.2 b.2 ∧ a.2 ≠ b.2)

/-- The `(year, month-label)` grouping key of `_month_step_df`. -/
def ymKey (e : PricePoint) : Int × String := (e.year, monthLabel e)

/-- `_month_step_df`: group by `(year, month)`, mean per bucket, sort by the
`(year, month-string)` key, shift to pair each bucket with its predecessor,
compute `delta_pct = (price − prev) / prev · 100`, and `dropna()` — which
removes the first bucket (its `prev` is `NaN`) and any `NaN` delta, but
keeps infinities.  Each surviving row is the bucket key with its delta. -/
def monthStepRows (l : List PricePoint) : List ((Int × String) × PVal) :=
  if l = [] then []
  else
    let bs := (groupsBy ymLe ymKey l).map (fun g => (g.1, listMean g.2))
    ((bs.tail.zip bs).map
        (fun cp => (cp.1.1, pmul100 (fdiv (cp.1.2 - cp.2.2) cp.2.2)))).filter
      (fun row => row.2 ≠ PVal.nan)

/-- Modelled from the spec: the month-over-month step series as §4.4 words
it — buckets in *chronological* `(year, calendar month)` order, each bucket's
mean compared against the immediately preceding chronological bucket, the
first bucket dropped.  Used only to compare against `monthStepRows`. -/
def yearMonthNumLe (a b : Int × Nat) : Prop :=
  a.1 < b.1 ∨ (a.1 = b.1 ∧ a.2 ≤ b.2)

instance : DecidableRel yearMonthNumLe := fun a b => by
  unfold yearMonthNumLe; infer_instance

/-- Modelled from the spec: chronological variant of `monthStepRows` (see
`yearMonthNumLe`); identical delta arithmetic, but buckets ordered by
`(year, calendar month number)`. -/
def monthStepRowsChrono (l : List PricePoint) :
    List ((Int × String) × PVal) :=
  if l = [] then []
  else
    let bs := (groupsBy yearMonthNumLe (fun e => (e.year, e.month)) l).map
      (fun g => ((g.1.1, monthName g.1.2), listMean g.2))
    ((bs.tail.zip bs).map
        (fun cp => (cp.1.1, pmul100 (fdiv (cp.1.2 - cp.2.2) cp.2.2)))).filter
      (fun row => row.2 ≠ PVal.nan)

/-- Total comparison of float cells as pandas sorts them; `NaN` never reaches
a ranking (it is dropped beforehand), so its position is irrelevant. -/
def pvalLeB : PVal → PVal → Bool
  | PVal.nan, _ => true
  | _, PVal.nan => false
  | PVal.ninf, _ => true
  | _, PVal.ninf => false
  | PVal.num a, PVal.num b => decide (a ≤ b)
  | PVal.num _, PVal.inf => true
  | PVal.inf, PVal.inf => true
  | PVal.inf, PVal.num _ => false

/-- Delta descending (for `nlargest`). -/
def deltaDesc (a b : (Int × String) × PVal) : Prop := pvalLeB b.2 a.2 = true

instance : DecidableRel deltaDesc := fun a b => by
  unfold deltaDesc; infer_instance

/-- Delta ascending (for `nsmallest`). -/
def deltaAsc (a b : (Int × String) × PVal) : Prop := pvalLeB a.2 b.2 = true

instance : DecidableRel deltaAsc := fun a b => by
  unfold deltaAsc; infer_instance

/-- `get_high_jump_months`: the 5 largest deltas, descending (`nlargest` is
stable, keeping the first occurrence on ties), labelled by month. -/
def getHighJumpMonths (l : List PricePoint) : List (String × PVal) :=
  let df := monthStepRows l
  if df = [] then []
  else ((df.insertionSort deltaDesc).take 5).map
    (fun row => (row.1.2, pround1 row.2))

/-- `get_high_drop_months`: the 5 smallest deltas, ascending. -/
def getHighDropMonths (l : List PricePoint) : List (String × PVal) :=
  let df := monthStepRows l
  if df = [] then []
  else ((df.insertionSort deltaAsc).take 5).map
    (fun row => (row.1.2, pround1 row.2))

/-- pandas sample variance (`ddof=1`), the square of `Series.std()`:
`NaN` (here `none`) on a single data point.  The source ranks buckets by
`std = √variance`; √ is strictly monotone on nonnegatives, so ranking by the
variance is the same ranking, and the model carries the (rational) variance
since the square root leaves `ℚ`. -/
def sampleVar (ps : List ℚ) : Option ℚ :=
  if ps.length ≤ 1 then none
  else some ((ps.map (fun x => (x - listMean ps) ^ 2)).sum /
    ((ps.length : ℚ) - 1))

/-- Variance (hence std) descending, for `nlargest`. -/
def varDesc (a b : String × ℚ) : Prop := b.2 ≤ a.2

instance : DecidableRel varDesc := fun a b => by
  unfold varDesc; infer_instance

/-- `get_volatile_months`: per-month-label sample deviation, `NaN` buckets
dropped by `nlargest`, top 5 by deviation descending (reported here as the
variance, see `sampleVar`). -/
def getVolatileMonths (l : List PricePoint) : List (String × ℚ) :=
  if l = [] then []
  else
    (((groupsBy strLe monthLabel l).filterMap
        (fun g => (sampleVar g.2).map (fun v => (g.1, v)))).insertionSort
      varDesc).take 5

/-- The coefficient of variation `cv = std / mean` of a quarter bucket, as a
float cell: `fin v m` stands for the finite value `√v / m` (kept as the
variance/mean pair since √ leaves `ℚ`), `inf` for a positive deviation over
a zero mean; `none` is `NaN` (single point, or `0 / 0`). -/
inductive CVVal where
  | fin : ℚ → ℚ → CVVal
  | inf : CVVal
deriving Repr, DecidableEq

/-- `std / mean` for one bucket's prices. -/
def cvOf (ps : List ℚ) : Option CVVal :=
  match sampleVar ps with
  | none => none
  | some v =>
    if listMean ps = 0 then
      if v = 0 then none else some CVVal.inf
    else some (CVVal.fin v (listMean ps))

/-- The sign (−1, 0, 1) of the cv value `√v / m` encoded by `fin v m`. -/
def cvSign : CVVal → Int
  | CVVal.inf => 1
  | CVVal.fin v m => if v = 0 then 0 else if 0 < m then 1 else -1

/-- Decides `√v₁ / m₁ ≤ √v₂ / m₂` by comparing signs and then the squared
magnitudes `v · m⁻²` cross-multiplied (valid since squaring is monotone on
same-sign values). -/
def cvLeB : CVVal → CVVal → Bool
  | _, CVVal.inf => true
  | CVVal.inf, CVVal.fin _ _ => false
  | CVVal.fin v₁ m₁, CVVal.fin v₂ m₂ =>
    let s₁ := cvSign (CVVal.fin v₁ m₁)
    let s₂ := cvSign (CVVal.fin v₂ m₂)
    if s₁ < s₂ then true
    else if s₂ < s₁ then false
    else if s₁ = 0 then true
    else if s₁ = 1 then decide (v₁ * m₂ ^ 2 ≤ v₂ * m₁ ^ 2)
    else decide (v₂ * m₁ ^ 2 ≤ v₁ * m₂ ^ 2)

/-- cv ascending (for `nsmallest`). -/
def cvAsc (a b : String × CVVal) : Prop := cvLeB a.2 b.2 = true

instance : DecidableRel cvAsc := fun a b => by
  unfold cvAsc; infer_instance

/-- `get_stable_quarters`: per-quarter cv, `NaN` rows dropped by
`nsmallest`, bottom 3 by cv ascending (most stable first). -/
def getStableQuarters (l : List PricePoint) : List (String × CVVal) :=
  if l = [] then []
  else
    (((groupsBy strLe quarterLabel l).filterMap
        (fun g => (cvOf g.2).map (fun c => (g.1, c)))).insertionSort
      cvAsc).take 3

/-! ## Aggregate lemmas for the write path -/

theorem aggMin_eq_none_iff (h : List HistRow) : aggMin h = none ↔ h = [] := by
  cases h <;> simp [aggMin]

theorem aggMin_concat {h : List HistRow} {m : ℚ} (r : HistRow)
    (hm : aggMin h = some m) :
    aggMin (h ++ [r]) = some (min m r.price) := by
  induction h generalizing m with
  | nil => simp [aggMin] at hm
  | cons a t ih =>
    cases ht : aggMin t with
    | none =>
      have ht2 : t = [] := (aggMin_eq_none_iff t).mp ht
      subst ht2
      simp only [aggMin] at hm
      simp only [Option.some.injEq] at hm
      subst hm
      simp [aggMin]
    | some mt =>
      simp only [aggMin, ht, Option.some.injEq] at hm
      have hrec := ih ht
      simp only [List.cons_append, aggMin, List.append_eq, hrec,
        Option.some.injEq]
      rw [← hm, min_assoc]

theorem aggMin_mem :
    ∀ {h : List HistRow} {m : ℚ}, aggMin h = some m → ∃ r ∈ h, r.price = m
  | [], m => by simp [aggMin]
  | a :: t, m => by
    intro hm
    cases ht : aggMin t with
    | none =>
      simp only [aggMin, ht, Option.some.injEq] at hm
      exact ⟨a, List.mem_cons_self a t, hm⟩
    | some mt =>
      simp only [aggMin, ht, Option.some.injEq] at hm
      rcases le_total a.price mt with hle | hle
      · exact ⟨a, List.mem_cons_self a t, by rw [← hm, min_eq_left hle]⟩
      · obtain ⟨r, hr, hrp⟩ := aggMin_mem ht
        exact ⟨r, List.mem_cons_of_mem _ hr,
          by rw [hrp, ← hm, min_eq_right hle]⟩

theorem aggMin_le_mem :
    ∀ {h : List HistRow} {m : ℚ}, aggMin h = some m →
      ∀ r ∈ h, m ≤ r.price
  | [], m => by simp [aggMin]
  | a :: t, m => by
    intro hm r hr
    cases ht : aggMin t with
    | none =>
      have ht2 : t = [] := (aggMin_eq_none_iff t).mp ht
      subst ht2
      simp only [aggMin, Option.some.injEq] at hm
      simp only [List.mem_singleton] at hr
      subst hr
      exact le_of_eq hm.symm
    | some mt =>
      simp only [aggMin, ht, Option.some.injEq] at hm
      rcases List.mem_cons.mp hr with hra | hrt
      · subst hra
        exact hm ▸ min_le_left _ _
      · exact le_trans (hm ▸ min_le_right _ _) (aggMin_le_mem ht r hrt)

theorem aggMax_eq_none_iff (h : List HistRow) : aggMax h = none ↔ h = [] := by
  cases h <;> simp [aggMax]

theorem aggMax_concat {h : List HistRow} {m : ℚ} (r : HistRow)
    (hm : aggMax h = some m) :
    aggMax (h ++ [r]) = some (max m r.price) := by
  induction h generalizing m with
  | nil => simp [aggMax] at hm
  | cons a t ih =>
    cases ht : aggMax t with
    | none =>
      have ht2 : t = [] := (aggMax_eq_none_iff t).mp ht
      subst ht2
      simp only [aggMax] at hm
      simp only [Option.some.injEq] at hm
      subst hm
      simp [aggMax]
    | some mt =>
      simp only [aggMax, ht, Option.some.injEq] at hm
      have hrec := ih ht
      simp only [List.cons_append, aggMax, List.append_eq, hrec,
        Option.some.injEq]
      rw [← hm, max_assoc]

theorem aggMax_mem :
    ∀ {h : List HistRow} {m : ℚ}, aggMax h = some m → ∃ r ∈ h, r.price = m
  | [], m => by simp [aggMax]
  | a :: t, m => by
    intro hm
    cases ht : aggMax t with
    | none =>
      simp only [aggMax, ht, Option.some.injEq] at hm
      exact ⟨a, List.mem_cons_self a t, hm⟩
    | some mt =>
      simp only [aggMax, ht, Option.some.injEq] at hm
      rcases le_total mt a.price with hle | hle
      · exact ⟨a, List.mem_cons_self a t, by rw [← hm, max_eq_left hle]⟩
      · obtain ⟨r, hr, hrp⟩ := aggMax_mem ht
        exact ⟨r, List.mem_cons_of_mem _ hr,
          by rw [hrp, ← hm, max_eq_right hle]⟩

/-- Positivity of the mean of a non-empty list of positive rationals. -/
theorem listMean_pos {l : List ℚ} (hne : l ≠ []) (hpos : ∀ x ∈ l, 0 < x) :
    0 < listMean l := by
  have hs : 0 < l.sum := List.sum_pos l hpos hne
  have hl : (0 : ℚ) < l.length := by
    exact_mod_cast List.length_pos.mpr hne
  exact div_pos hs hl

theorem savePrice_step (l2 : Listing) (h : List HistRow)
    (hpos : ∀ r ∈ h, 0 < r.price) (hp : 0 < l2.price)
    (hmin : aggMin h = some l2.lowest_price)
    (hmax : aggMax h = some l2.highest_price) :
    GoodState (savePriceListing ⟨l2, h⟩ false (some ["price"])) := by
  have hlowpos : 0 < l2.lowest_price := by
    obtain ⟨r, hr, hrp⟩ := aggMin_mem hmin
    exact hrp ▸ hpos r hr
  have hhighpos : 0 < l2.highest_price := by
    obtain ⟨r, hr, hrp⟩ := aggMax_mem hmax
    exact hrp ▸ hpos r hr
  have hsave : savePriceListing ⟨l2, h⟩ false (some ["price"]) =
      ⟨recalcStats l2 ((h ++ [signalRow l2]) ++ [⟨l2.price, l2.currency⟩]),
        ((h ++ [signalRow l2]) ++ [⟨l2.price, l2.currency⟩]) ++
          [signalRow (recalcStats l2
            ((h ++ [signalRow l2]) ++ [⟨l2.price, l2.currency⟩]))]⟩ := by
    simp [savePriceListing]
  have hh2pos : ∀ r ∈ (h ++ [signalRow l2]) ++ [⟨l2.price, l2.currency⟩],
      0 < r.price := by
    intro r hr
    simp only [List.mem_append, List.mem_singleton] at hr
    rcases hr with (hr | hr) | hr
    · exact hpos r hr
    · rw [hr]
      exact hp
    · rw [hr]
      exact hp
  have hh2ne : (h ++ [signalRow l2]) ++ [⟨l2.price, l2.currency⟩] ≠ [] := by
    simp
  have hmin1 : aggMin (h ++ [signalRow l2]) =
      some (min l2.lowest_price l2.price) :=
    aggMin_concat (signalRow l2) hmin
  have hmin2 : aggMin ((h ++ [signalRow l2]) ++ [⟨l2.price, l2.currency⟩]) =
      some (min l2.lowest_price l2.price) := by
    have hstep := aggMin_concat (⟨l2.price, l2.currency⟩ : HistRow) hmin1
    rw [hstep, min_assoc, min_self]
  have hmax1 : aggMax (h ++ [signalRow l2]) =
      some (max l2.highest_price l2.price) :=
    aggMax_concat (signalRow l2) hmax
  have hmax2 : aggMax ((h ++ [signalRow l2]) ++ [⟨l2.price, l2.currency⟩]) =
      some (max l2.highest_price l2.price) := by
    have hstep := aggMax_concat (⟨l2.price, l2.currency⟩ : HistRow) hmax1
    rw [hstep, max_assoc, max_self]
  have hminpos : (0 : ℚ) < min l2.lowest_price l2.price :=
    lt_min hlowpos hp
  have hmaxpos : (0 : ℚ) < max l2.highest_price l2.price :=
    lt_of_lt_of_le hp (le_max_right _ _)
  have hmeanpos :
      0 < listMean (((h ++ [signalRow l2]) ++
        [(⟨l2.price, l2.currency⟩ : HistRow)]).map (·.price)) := by
    refine listMean_pos (by simp) ?_
    intro x hx
    simp only [List.mem_map] at hx
    obtain ⟨r, hr, hrx⟩ := hx
    refine hrx ▸ hh2pos r ?_
    simpa using hr
  have hlow : (recalcStats l2 ((h ++ [signalRow l2]) ++
      [⟨l2.price, l2.currency⟩])).lowest_price =
      min l2.lowest_price l2.price := by
    simp only [recalcStats]
    rw [hmin2]
    simp [orFalsy, ne_of_gt hminpos]
  have hhigh : (recalcStats l2 ((h ++ [signalRow l2]) ++
      [⟨l2.price, l2.currency⟩])).highest_price =
      max l2.highest_price l2.price := by
    simp only [recalcStats]
    rw [hmax2]
    simp [orFalsy, ne_of_gt hmaxpos]
  have havg : (recalcStats l2 ((h ++ [signalRow l2]) ++
      [⟨l2.price, l2.currency⟩])).average_price =
      listMean (((h ++ [signalRow l2]) ++
        [(⟨l2.price, l2.currency⟩ : HistRow)]).map (·.price)) := by
    simp only [recalcStats, aggAvg, if_neg hh2ne, orFalsy]
    rw [if_neg (ne_of_gt hmeanpos)]
  rw [hsave]
  refine ⟨by simp, ?_, ?_, ?_, ?_⟩
  · intro r hr
    simp only [List.mem_append, List.mem_singleton] at hr
    rcases hr with ((hr | hr) | hr) | hr
    · exact hpos r hr
    · rw [hr]
      exact hp
    · rw [hr]
      exact hp
    · rw [hr]
      exact hp
  · have hstep := aggMin_concat (signalRow (recalcStats l2
      ((h ++ [signalRow l2]) ++ [⟨l2.price, l2.currency⟩]))) hmin2
    rw [hstep]
    have hpr : (signalRow (recalcStats l2 ((h ++ [signalRow l2]) ++
        [⟨l2.price, l2.currency⟩]))).price = l2.price := rfl
    rw [hpr, min_assoc, min_self, hlow]
  · have hstep := aggMax_concat (signalRow (recalcStats l2
      ((h ++ [signalRow l2]) ++ [⟨l2.price, l2.currency⟩]))) hmax2
    rw [hstep]
    have hpr : (signalRow (recalcStats l2 ((h ++ [signalRow l2]) ++
        [⟨l2.price, l2.currency⟩]))).price = l2.price := rfl
    rw [hpr, max_assoc, max_self, hhigh]
  · rw [List.dropLast_concat, havg]

/-- Keys of the filtered step rows: mapping each zip pair to its first
bucket's key and filtering preserves the key order of the tail of the
bucket list. -/
theorem pairwise_stepKeys {α β γ : Type} (R : α → α → Prop)
    (bs : List (α × β)) (hp : (bs.map Prod.fst).Pairwise R)
    (g : (α × β) × (α × β) → γ) (q : α × γ → Bool) :
    ((((bs.tail.zip bs).map (fun cp => (cp.1.1, g cp))).filter q).map
      Prod.fst).Pairwise R := by
  have hlen : bs.tail.length ≤ bs.length := by
    rw [List.length_tail]
    omega
  have key : (((bs.tail.zip bs).map (fun cp => (cp.1.1, g cp))).map
      Prod.fst) = (bs.map Prod.fst).tail := by
    rw [List.map_map]
    have h1 : (Prod.fst ∘ fun cp : (α × β) × (α × β) => (cp.1.1, g cp)) =
        (Prod.fst ∘ (Prod.fst : (α × β) × (α × β) → α × β)) := rfl
    rw [h1, ← List.map_map, List.map_fst_zip _ _ hlen, List.map_tail]
  refine List.Pairwise.sublist ?_ hp
  have hsub : List.Sublist
      ((((bs.tail.zip bs).map (fun cp => (cp.1.1, g cp))).filter q).map
        Prod.fst)
      (((bs.tail.zip bs).map (fun cp => (cp.1.1, g cp))).map Prod.fst) :=
    List.Sublist.map Prod.fst
      (List.filter_sublist ((bs.tail.zip bs).map (fun cp => (cp.1.1, g cp))))
  rw [key] at hsub
  exact hsub.trans (List.tail_sublist _)

/-! ## Order facts for the sorting relations -/

theorem charListLeB_refl : ∀ as, charListLeB as as = true
  | [] => rfl
  | a :: as => by simp [charListLeB, charListLeB_refl as]

theorem charListLeB_total :
    ∀ as bs, charListLeB as bs = true ∨ charListLeB bs as = true
  | [], _ => Or.inl rfl
  | _ :: _, [] => Or.inr rfl
  | a :: as, b :: bs => by
    rcases Nat.lt_trichotomy a.toNat b.toNat with h | h | h
    · left
      simp [charListLeB, h]
    · have h1 : ¬a.toNat < b.toNat := by omega
      have h2 : ¬b.toNat < a.toNat := by omega
      rcases charListLeB_total as bs with ih | ih
      · left
        simp [charListLeB, h1, h2, ih]
      · right
        simp [charListLeB, h1, h2, ih]
    · right
      simp [charListLeB, h]

theorem charListLeB_trans :
    ∀ as bs cs, charListLeB as bs = true → charListLeB bs cs = true →
      charListLeB as cs = true
  | [], _, cs => by simp [charListLeB]
  | _ :: _, [], _ => by simp [charListLeB]
  | _ :: _, _ :: _, [] => by simp [charListLeB]
  | a :: as, b :: bs, c :: cs => by
    intro h1 h2
    rcases Nat.lt_trichotomy a.toNat b.toNat with hab | hab | hab <;>
      rcases Nat.lt_trichotomy b.toNat c.toNat with hbc | hbc | hbc <;>
      simp only [charListLeB] at h1 h2 ⊢ <;>
      first
        | (simp only [if_pos (by omega : a.toNat < c.toNat)])
        | skip
    · simp [show ¬b.toNat < c.toNat by omega,
        show c.toNat < b.toNat from hbc] at h2
    · have e1 : ¬a.toNat < b.toNat := by omega
      have e2 : ¬b.toNat < a.toNat := by omega
      have e3 : ¬b.toNat < c.toNat := by omega
      have e4 : ¬c.toNat < b.toNat := by omega
      have e5 : ¬a.toNat < c.toNat := by omega
      have e6 : ¬c.toNat < a.toNat := by omega
      simp only [e1, e2, if_neg, ite_false] at h1
      simp only [e3, e4, if_neg, ite_false] at h2
      simp only [e5, e6, if_neg, ite_false]
      exact charListLeB_trans as bs cs (by simpa using h1) (by simpa using h2)
    · simp [show ¬b.toNat < c.toNat by omega,
        show c.toNat < b.toNat from hbc] at h2
    · simp [show ¬a.toNat < b.toNat by omega,
        show b.toNat < a.toNat from hab] at h1
    · simp [show ¬a.toNat < b.toNat by omega,
        show b.toNat < a.toNat from hab] at h1
    · simp [show ¬a.toNat < b.toNat by omega,
        show b.toNat < a.toNat from hab] at h1

theorem charListLeB_antisymm :
    ∀ as bs, charListLeB as bs = true → charListLeB bs as = true → as = bs
  | [], [] => by simp
  | [], _ :: _ => by simp [charListLeB]
  | _ :: _, [] => by simp [charListLeB]
  | a :: as, b :: bs => by
    intro h1 h2
    rcases Nat.lt_trichotomy a.toNat b.toNat with h | h | h
    · simp [charListLeB, show ¬b.toNat < a.toNat by omega, h] at h2
    · have e1 : ¬a.toNat < b.toNat := by omega
      have e2 : ¬b.toNat < a.toNat := by omega
      have hab : a = b := by
        have := Char.ofNat_toNat a
        rw [h, Char.ofNat_toNat b] at this
        exact this.symm
      simp only [charListLeB, e1, e2, if_neg, ite_false] at h1 h2
      rw [hab, charListLeB_antisymm as bs (by simpa using h1)
        (by simpa using h2)]
    · simp [charListLeB, show ¬a.toNat < b.toNat by omega, h] at h1

theorem strLe_refl (a : String) : strLe a a := charListLeB_refl a.data

theorem strLe_antisymm {a b : String} (h1 : strLe a b) (h2 : strLe b a) :
    a = b :=
  String.ext (charListLeB_antisymm a.data b.data h1 h2)

instance : IsTotal String strLe :=
  ⟨fun a b => charListLeB_total a.data b.data⟩

instance : IsTrans String strLe :=
  ⟨fun a b c => charListLeB_trans a.data b.data c.data⟩

instance : IsTotal (Int × String) ymLe := by
  constructor
  intro a b
  rcases lt_trichotomy a.1 b.1 with h | h | h
  · exact Or.inl (Or.inl h)
  · rcases charListLeB_total a.2.data b.2.data with hs | hs
    · exact Or.inl (Or.inr ⟨h, hs⟩)
    · exact Or.inr (Or.inr ⟨h.symm, hs⟩)
  · exact Or.inr (Or.inl h)

instance : IsTrans (Int × String) ymLe := by
  constructor
  rintro a b c (hab | ⟨hab, hab2⟩) (hbc | ⟨hbc, hbc2⟩)
  · exact Or.inl (hab.trans hbc)
  · exact Or.inl (hbc ▸ hab)
  · exact Or.inl (hab ▸ hbc)
  · exact Or.inr ⟨hab.trans hbc, charListLeB_trans _ _ _ hab2 hbc2⟩

theorem ymLe_lt_of_ne {a b : Int × String} (h : ymLe a b) (hne : a ≠ b) :
    ymLt a b := by
  rcases h with h | ⟨h1, h2⟩
  · exact Or.inl h
  · refine Or.inr ⟨h1, h2, fun hs => hne ?_⟩
    exact Prod.ext h1 hs

/-! ## Claim C4 -/

/-- C4: listing creation raises `ValidationError` if and only if the stem is
not exactly one of product/service or both town and market are absent:
exactly one stem with at least one geo anchor succeeds; both stems, neither
stem, or both geo anchors null is rejected. -/
theorem c4_validation_iff :
    ∀ hasProduct hasService hasTown hasMarket : Bool,
      ((cleanListing hasProduct hasService hasTown hasMarket ≠
          Except.ok ()) ↔
        (hasProduct = hasService ∨ (hasTown = false ∧ hasMarket = false))) ∧
      ((cleanListing hasProduct hasService hasTown hasMarket =
          Except.ok ()) ↔
        (hasProduct ≠ hasService ∧ (hasTown = true ∨ hasMarket = true))) := by
  intro hasProduct hasService hasTown hasMarket
  cases hasProduct <;> cases hasService <;> cases hasTown <;>
    cases hasMarket <;> simp [cleanListing]

/-! ## Claim C10 -/

/-- C10: `_recalc_stats` falls back to the listing's current price for any
aggregate whose computed value is falsy, not only on empty history: with a
non-empty history whose mean (resp. minimum, maximum) price is exactly `0`,
the recompute stores the current price for that aggregate instead of `0`. -/
theorem c10_falsy_fallback (l : Listing) (h : List HistRow) (hne : h ≠ []) :
    (listMean (h.map (·.price)) = 0 →
      (recalcStats l h).average_price = l.price) ∧
    (aggMin h = some 0 → (recalcStats l h).lowest_price = l.price) ∧
    (aggMax h = some 0 → (recalcStats l h).highest_price = l.price) := by
  refine ⟨fun hz => ?_, fun hz => ?_, fun hz => ?_⟩ <;>
    simp [recalcStats, orFalsy, aggAvg, hne, hz]

/-- Witness for C10 at a listing priced 7 with one zero-priced history row:
all three aggregates fall back to 7. -/
theorem c10_falsy_fallback_witness :
    (recalcStats ⟨7, "GHS", 0, 0, 0, true, ""⟩ [⟨0, "GHS"⟩]).average_price
        = 7 ∧
    (recalcStats ⟨7, "GHS", 0, 0, 0, true, ""⟩ [⟨0, "GHS"⟩]).lowest_price
        = 7 ∧
    (recalcStats ⟨7, "GHS", 0, 0, 0, true, ""⟩
        [⟨0, "GHS"⟩]).highest_price = 7 := by
  have h := c10_falsy_fallback ⟨7, "GHS", 0, 0, 0, true, ""⟩ [⟨0, "GHS"⟩]
    (by simp)
  exact ⟨h.1 (by norm_num [listMean]), h.2.1 (by norm_num [aggMin]),
    h.2.2 (by norm_num [aggMax])⟩

/-! ## Claim C8 -/

/-- C8: on an empty history snapshot every analytics view returns an empty
list or `None` (the functions are total, so no exception is possible). -/
theorem c8_empty_analytics :
    getQuarterlyCurve [] = [] ∧ getMonthlyCurve [] = [] ∧
    getTopQuarterOverall [] = none ∧ getTopQuarterRecent [] = none ∧
    getHighJumpMonths [] = [] ∧ getHighDropMonths [] = [] ∧
    getVolatileMonths [] = [] ∧ getStableQuarters [] = [] := by
  decide

/-! ## Claim C2 -/

/-- C2 counterexample: a note-only save of an existing listing does *not*
leave the history count unchanged — the `post_save` signal appends a row on
every save (3 rows after creation, 4 after the note-only edit). -/
theorem c2_counterexample :
    ¬ ((noteSave (createListing 10 "GHS") "note only").history.length =
        (createListing 10 "GHS").history.length) := by
  decide

/-- C2 amended: every save of an existing listing appends history via the
`post_save` signal.  A save whose `update_fields` does not include
`"price"` (note-only, status-only, deactivate, reactivate, and any default
`save()`) appends exactly 1 row and leaves the three aggregates untouched;
a save with `"price"` in `update_fields` appends exactly 3 rows (signal,
explicit snapshot, then the signal of the nested aggregate-persisting
save). -/
theorem c2_amended (s : MIState) (uf : Option (List String)) :
    ("price" ∉ uf.getD [] →
      (savePriceListing s false uf).history.length =
          s.history.length + 1 ∧
      (savePriceListing s false uf).listing.average_price =
          s.listing.average_price ∧
      (savePriceListing s false uf).listing.lowest_price =
          s.listing.lowest_price ∧
      (savePriceListing s false uf).listing.highest_price =
          s.listing.highest_price) ∧
    ("price" ∈ uf.getD [] →
      (savePriceListing s false uf).history.length =
          s.history.length + 3) := by
  constructor
  · intro hnp
    simp [savePriceListing, hnp]
  · intro hp
    simp [savePriceListing, hp, List.length_append]

/-- Witness for C2 at a listing with one history row: a plain save grows the
history to 2 rows, a `update_fields=["price"]` save to 4. -/
theorem c2_amended_witness :
    (savePriceListing ⟨⟨10, "GHS", 10, 10, 10, true, ""⟩, [⟨10, "GHS"⟩]⟩
        false none).history.length = 2 ∧
    (savePriceListing ⟨⟨10, "GHS", 10, 10, 10, true, ""⟩, [⟨10, "GHS"⟩]⟩
        false (some ["price"])).history.length = 4 := by
  refine ⟨((c2_amended ⟨⟨10, "GHS", 10, 10, 10, true, ""⟩, [⟨10, "GHS"⟩]⟩
    none).1 (by decide)).1, ?_⟩
  exact (c2_amended ⟨⟨10, "GHS", 10, 10, 10, true, ""⟩, [⟨10, "GHS"⟩]⟩
    (some ["price"])).2 (by decide)

/-! ## Claim C3 -/

/-- C3 counterexample: creating a listing writes three `PriceHistory` rows,
not exactly one (signal of the first save, explicit snapshot, signal of the
nested aggregate-persisting save). -/
theorem c3_counterexample :
    ¬ ((createListing 10 "GHS").history.length = 1) := by
  decide

/-- C3 amended: creating a listing with price `P` writes exactly three
history rows, each carrying price `P` (and the listing currency, for a
non-empty currency code), and seeds all three aggregates to `P`. -/
theorem c3_amended (p : ℚ) (c : String) :
    (createListing p c).history.map (·.price) = [p, p, p] ∧
    (createListing p c).listing.average_price = p ∧
    (createListing p c).listing.lowest_price = p ∧
    (createListing p c).listing.highest_price = p ∧
    (c ≠ "" → (createListing p c).history.map (·.currency) = [c, c, c]) := by
  have hmean : listMean [p, p] = p := by
    simp [listMean]
  refine ⟨?_, ?_, ?_, ?_, fun hc => ?_⟩
  · simp [createListing, savePriceListing, newListing, signalRow,
      recalcStats]
  · simp [createListing, savePriceListing, newListing, signalRow,
      recalcStats, aggAvg, orFalsy, hmean]
  · simp [createListing, savePriceListing, newListing, signalRow,
      recalcStats, aggMin, orFalsy]
  · simp [createListing, savePriceListing, newListing, signalRow,
      recalcStats, aggMax, orFalsy]
  · simp [createListing, savePriceListing, newListing, signalRow,
      recalcStats, hc]

/-- Witness for C3 at price 10, currency `"GHS"`. -/
theorem c3_amended_witness :
    (createListing 10 "GHS").history.map (·.price) = [10, 10, 10] ∧
    (createListing 10 "GHS").listing.average_price = 10 ∧
    (createListing 10 "GHS").history.map (·.currency) =
      ["GHS", "GHS", "GHS"] := by
  exact ⟨(c3_amended 10 "GHS").1, (c3_amended 10 "GHS").2.1,
    (c3_amended 10 "GHS").2.2.2.2 (by decide)⟩

/-! ## Claim C5 -/

/-- C5 counterexample: a listing with exactly one history entry is *not*
reported with volatility 0: the sample deviation (`ddof=1`) of a singleton
bucket is `NaN`, so `nlargest` / `nsmallest` drop the bucket and both
rankings come back empty. -/
theorem c5_counterexample :
    getVolatileMonths [⟨10, 2025, 1⟩] = [] ∧
    getStableQuarters [⟨10, 2025, 1⟩] = [] := by
  decide

/-- C5 amended: a month or quarter bucket with a single data point has
`NaN` sample deviation and is excluded from the volatility and stability
rankings; in particular a listing with exactly one history entry yields
empty `volatile_months` and `stable_quarters`. -/
theorem c5_amended (p : ℚ) (y : Int) (m : Nat) :
    sampleVar [p] = none ∧
    getVolatileMonths [⟨p, y, m⟩] = [] ∧
    getStableQuarters [⟨p, y, m⟩] = [] := by
  refine ⟨rfl, ?_, ?_⟩
  · simp [getVolatileMonths, groupsBy, sampleVar,
      List.insertionSort, List.orderedInsert, List.filter_cons,
      decide_eq_true_eq]
  · simp [getStableQuarters, groupsBy, cvOf, sampleVar,
      List.insertionSort, List.orderedInsert, List.filter_cons,
      decide_eq_true_eq]

/-! ## Claim C7 -/

/-- C7 counterexample: a month bucket whose predecessor's mean is zero is
*not* excluded from the step series — `(10 − 0) / 0` is `+inf`, which
`dropna` keeps, so the row survives with an infinite `delta_pct`. -/
theorem c7_counterexample :
    monthStepRows [⟨0, 2025, 4⟩, ⟨10, 2025, 8⟩] =
      [((2025, "Aug"), PVal.inf)] := by
  have hgroups :
      groupsBy ymLe ymKey [⟨0, 2025, 4⟩, ⟨10, 2025, 8⟩] =
      [(((2025 : Int), "Apr"), [0]), ((2025, "Aug"), [10])] := by decide
  simp only [monthStepRows, hgroups]
  norm_num [listMean, fdiv, pmul100, List.filter_cons]
  simp

/-- C7 amended: the division guards only remove `NaN` results — `dropna`
keeps every non-`NaN` row, so a `0/0` bucket (zero previous mean and zero
difference) is excluded, but a nonzero mean following a zero mean yields an
*infinite* `delta_pct` that stays in the step series. -/
theorem c7_amended :
    (∀ (l : List PricePoint) (row : (Int × String) × PVal),
        row ∈ monthStepRows l → row.2 ≠ PVal.nan) ∧
    monthStepRows [⟨0, 2025, 4⟩, ⟨10, 2025, 8⟩] =
      [((2025, "Aug"), PVal.inf)] ∧
    monthStepRows [⟨0, 2025, 4⟩, ⟨0, 2025, 8⟩] = [] := by
  have hgroups :
      groupsBy ymLe ymKey [⟨0, 2025, 4⟩, ⟨10, 2025, 8⟩] =
      [(((2025 : Int), "Apr"), [0]), ((2025, "Aug"), [10])] := by decide
  have hgroups0 :
      groupsBy ymLe ymKey [⟨0, 2025, 4⟩, ⟨0, 2025, 8⟩] =
      [(((2025 : Int), "Apr"), [0]), ((2025, "Aug"), [0])] := by decide
  have hinf : monthStepRows [⟨0, 2025, 4⟩, ⟨10, 2025, 8⟩] =
      [((2025, "Aug"), PVal.inf)] := by
    simp only [monthStepRows, hgroups]
    norm_num [listMean, fdiv, pmul100, List.filter_cons]
    simp
  have hzero : monthStepRows [⟨0, 2025, 4⟩, ⟨0, 2025, 8⟩] = [] := by
    simp only [monthStepRows, hgroups0]
    norm_num [listMean, fdiv, pmul100, List.filter_cons]
  refine ⟨?_, hinf, hzero⟩
  intro l row h
  by_cases hl : l = []
  · simp [monthStepRows, hl] at h
  · simp only [monthStepRows, if_neg hl, List.mem_filter] at h
    simpa using h.2

/-- Witness for C7: the surviving infinite row of the counterexample input
is indeed not `NaN`. -/
theorem c7_amended_witness :
    ((((2025 : Int), "Aug"), PVal.inf) :
        (Int × String) × PVal).2 ≠ PVal.nan :=
  c7_amended.1 [⟨0, 2025, 4⟩, ⟨10, 2025, 8⟩] _ (by
    rw [c7_amended.2.1]
    exact List.mem_singleton.mpr rfl)

/-! ## Claim C6 (counterexample part) -/

/-- C6 counterexample: the step series orders buckets by the month *label
string* (alphabetically), not chronologically.  With January priced 10 and
February priced 20 in one year, the code emits the `"Jan"` bucket with
`delta_pct = −50` (February sorts first alphabetically), while the
chronological series of the claim emits `"Feb"` with `+100`. -/
theorem c6_counterexample :
    monthStepRows [⟨10, 2025, 1⟩, ⟨20, 2025, 2⟩] ≠
      monthStepRowsChrono [⟨10, 2025, 1⟩, ⟨20, 2025, 2⟩] ∧
    monthStepRows [⟨10, 2025, 1⟩, ⟨20, 2025, 2⟩] =
      [((2025, "Jan"), PVal.num (-50))] ∧
    monthStepRowsChrono [⟨10, 2025, 1⟩, ⟨20, 2025, 2⟩] =
      [((2025, "Feb"), PVal.num 100)] := by
  have hgroups :
      groupsBy ymLe ymKey [⟨10, 2025, 1⟩, ⟨20, 2025, 2⟩] =
      [(((2025 : Int), "Feb"), [20]), ((2025, "Jan"), [10])] := by decide
  have hgroupsChrono :
      groupsBy yearMonthNumLe (fun e => (e.year, e.month))
        [⟨10, 2025, 1⟩, ⟨20, 2025, 2⟩] =
      [(((2025 : Int), 1), [10]), ((2025, 2), [20])] := by decide
  have h1 : monthStepRows [⟨10, 2025, 1⟩, ⟨20, 2025, 2⟩] =
      [((2025, "Jan"), PVal.num (-50))] := by
    simp only [monthStepRows, hgroups]
    norm_num [listMean, fdiv, pmul100, List.filter_cons]
    simp
  have h2 : monthStepRowsChrono [⟨10, 2025, 1⟩, ⟨20, 2025, 2⟩] =
      [((2025, "Feb"), PVal.num 100)] := by
    simp only [monthStepRowsChrono, hgroupsChrono]
    norm_num [monthName, listMean, fdiv, pmul100, List.filter_cons]
    simp
  refine ⟨?_, h1, h2⟩
  rw [h1, h2]
  simp

/-! ## Claim C1 -/

/-- Creation establishes the C1 invariant, prices positive. -/
theorem createListing_good {p : ℚ} (c : String) (hp : 0 < p) :
    GoodState (createListing p c) := by
  have hp0 : p ≠ 0 := ne_of_gt hp
  have hmean : listMean [p, p] = p := by simp [listMean]
  refine ⟨?_, ?_, ?_, ?_, ?_⟩
  · simp [createListing, savePriceListing]
  · have hhist : (createListing p c).history.map (·.price) = [p, p, p] := by
      simp [createListing, savePriceListing, newListing, signalRow,
        recalcStats]
    intro r hr
    have hmem : r.price ∈ (createListing p c).history.map (·.price) :=
      List.mem_map_of_mem _ hr
    rw [hhist] at hmem
    simp only [List.mem_cons, List.not_mem_nil, or_false] at hmem
    rcases hmem with hmem | hmem | hmem <;> rw [hmem] <;> exact hp
  · simp [createListing, savePriceListing, newListing, signalRow,
      recalcStats, aggMin, orFalsy, hp0]
  · simp [createListing, savePriceListing, newListing, signalRow,
      recalcStats, aggMax, orFalsy, hp0]
  · simp [createListing, savePriceListing, newListing, signalRow,
      recalcStats, aggAvg, orFalsy, hmean, hp0, listMean]

/-- A price update (`update_fields=["price"]` save) preserves the C1
invariant. -/
theorem updatePriceSave_good {s : MIState} (hs : GoodState s) {p : ℚ}
    (hp : 0 < p) : GoodState (updatePriceSave s p) := by
  obtain ⟨hne, hpos, hmin, hmax, havg⟩ := hs
  exact savePrice_step { s.listing with price := p } s.history hpos hp hmin
    hmax

/-- C1 amended: after creation and after each `update_fields=["price"]`
save, with all prices positive, the stored `lowest_price` and
`highest_price` equal the exact minimum and maximum over *all* of the
listing's history rows, while the stored `average_price` equals the exact
mean of all history rows *except the last one* — the row appended by the
`post_save` signal of the nested aggregate-persisting save, which the
recompute never sees.  (The stored average therefore differs from the mean
over all rows in general; see the counterexample.) -/
theorem c1_amended (p0 : ℚ) (c : String) (ups : List ℚ) (h0 : 0 < p0)
    (hups : ∀ p ∈ ups, 0 < p) :
    aggMin (runUpdates p0 c ups).history =
      some (runUpdates p0 c ups).listing.lowest_price ∧
    aggMax (runUpdates p0 c ups).history =
      some (runUpdates p0 c ups).listing.highest_price ∧
    (runUpdates p0 c ups).listing.average_price =
      listMean (((runUpdates p0 c ups).history.dropLast).map (·.price)) := by
  suffices hg : ∀ l : List ℚ, (∀ p ∈ l, 0 < p) →
      GoodState (runUpdates p0 c l) by
    obtain ⟨_, _, h1, h2, h3⟩ := hg ups hups
    exact ⟨h1, h2, h3⟩
  intro l
  induction l using List.reverseRecOn with
  | nil =>
    intro _
    exact createListing_good c h0
  | append_singleton us u ih =>
    intro hul
    have hus : ∀ p ∈ us, 0 < p := fun p hp => hul p (by simp [hp])
    have hu : 0 < u := hul u (by simp)
    have hrun : runUpdates p0 c (us ++ [u]) =
        updatePriceSave (runUpdates p0 c us) u := by
      simp [runUpdates, List.foldl_append]
    rw [hrun]
    exact updatePriceSave_good (ih hus) hu

/-- Witness for C1 (amended) at create 10 then update to 15. -/
theorem c1_amended_witness :
    aggMin (runUpdates 10 "GHS" [15]).history =
      some (runUpdates 10 "GHS" [15]).listing.lowest_price ∧
    aggMax (runUpdates 10 "GHS" [15]).history =
      some (runUpdates 10 "GHS" [15]).listing.highest_price ∧
    (runUpdates 10 "GHS" [15]).listing.average_price =
      listMean (((runUpdates 10 "GHS" [15]).history.dropLast).map
        (·.price)) :=
  c1_amended 10 "GHS" [15] (by norm_num)
    (by
      intro p hp
      simp only [List.mem_singleton] at hp
      rw [hp]
      norm_num)

/-- C1 counterexample: create at 10, update to 15.  The history then holds
prices `[10, 10, 10, 15, 15, 15]` (three appends per price-bearing save),
whose exact mean is 12.5, but the stored `average_price` is 12 — the
recompute ran before the last signal-append. -/
theorem c1_counterexample :
    (runUpdates 10 "GHS" [15]).listing.average_price ≠
      listMean ((runUpdates 10 "GHS" [15]).history.map (·.price)) := by
  have hgne : ¬("GHS" : String) = "" := by decide
  have hstate : runUpdates 10 "GHS" [15] =
      ⟨⟨15, "GHS", 12, 10, 15, true, ""⟩,
        [⟨10, "GHS"⟩, ⟨10, "GHS"⟩, ⟨10, "GHS"⟩,
         ⟨15, "GHS"⟩, ⟨15, "GHS"⟩, ⟨15, "GHS"⟩]⟩ := by
    norm_num [runUpdates, createListing, updatePriceSave, savePriceListing,
      newListing, signalRow, recalcStats, aggAvg, aggMin, aggMax, orFalsy,
      listMean, hgne, min_def, max_def]
    simp
  rw [hstate]
  norm_num [listMean]

/-! ## Claim C6 (amended part) and Claim C9 -/

/-- C6 amended: the step series groups by `(year, month)` and computes
`delta_pct = (price − prev)/prev·100` against the immediately preceding
bucket with the first bucket dropped, but the bucket order is year
ascending then month *label* ascending (alphabetical code-point order),
not calendar order.  Formally: the surviving bucket keys are strictly
increasing in `ymLt`; the concrete example (Jan 10, Feb 20, Mar 40 of one
year) is processed along the alphabetical chain Feb → Jan → Mar, giving
`"Jan"` delta −50 and `"Mar"` delta +300. -/
theorem c6_amended :
    (∀ l : List PricePoint,
      ((monthStepRows l).map (·.1)).Pairwise ymLt) ∧
    monthStepRows [⟨10, 2025, 1⟩, ⟨20, 2025, 2⟩, ⟨40, 2025, 3⟩] =
      [((2025, "Jan"), PVal.num (-50)), ((2025, "Mar"), PVal.num 300)] := by
  constructor
  · intro l
    by_cases hl : l = []
    · simp [monthStepRows, hl]
    · simp only [monthStepRows, if_neg hl]
      have hsorted :
          (((l.map ymKey).dedup).insertionSort ymLe).Pairwise ymLe :=
        List.sorted_insertionSort ymLe _
      have hnodup : (((l.map ymKey).dedup).insertionSort ymLe).Nodup :=
        (List.perm_insertionSort ymLe _).nodup_iff.mpr (List.nodup_dedup _)
      have hstrict :
          (((l.map ymKey).dedup).insertionSort ymLe).Pairwise ymLt :=
        List.Pairwise.imp (fun hab => ymLe_lt_of_ne hab.1 hab.2)
          (hsorted.and hnodup)
      have hbs : (((groupsBy ymLe ymKey l).map
          (fun g => (g.1, listMean g.2))).map Prod.fst) =
          ((l.map ymKey).dedup).insertionSort ymLe := by
        simp only [groupsBy, List.map_map]
        exact List.map_id'' (fun k => rfl) _
      have hp : ((((groupsBy ymLe ymKey l).map
          (fun g => (g.1, listMean g.2))).map Prod.fst)).Pairwise ymLt := by
        rw [hbs]
        exact hstrict
      exact pairwise_stepKeys ymLt
        ((groupsBy ymLe ymKey l).map (fun g => (g.1, listMean g.2))) hp
        (fun cp => pmul100 (fdiv (cp.1.2 - cp.2.2) cp.2.2))
        (fun row => decide (row.2 ≠ PVal.nan))
  · have hgroups :
        groupsBy ymLe ymKey [⟨10, 2025, 1⟩, ⟨20, 2025, 2⟩, ⟨40, 2025, 3⟩] =
        [(((2025 : Int), "Feb"), [20]), ((2025, "Jan"), [10]),
          ((2025, "Mar"), [40])] := by decide
    simp only [monthStepRows, hgroups]
    norm_num [listMean, fdiv, pmul100, List.filter_cons]
    simp

/-- C9: `top_quarter_overall` returns `None` on an empty snapshot; on a
non-empty snapshot it returns a quarter label of the snapshot whose mean
price is minimal, and on ties the least such label in ascending
(code-point) label order. -/
theorem c9_top_quarter_overall :
    getTopQuarterOverall [] = none ∧
    ∀ l : List PricePoint, l ≠ [] →
      ∃ q, getTopQuarterOverall l = some q ∧
        q ∈ l.map quarterLabel ∧
        (∀ k ∈ l.map quarterLabel, qMeanOf l q ≤ qMeanOf l k) ∧
        (∀ k ∈ l.map quarterLabel, qMeanOf l k = qMeanOf l q →
          strLe q k) := by
  refine ⟨rfl, ?_⟩
  intro l hl
  have hpairs : quarterMeans l =
      (((l.map quarterLabel).dedup).insertionSort strLe).map
        (fun k => (k, qMeanOf l k)) := by
    simp only [quarterMeans, groupsBy, List.map_map]
    rfl
  have hksne : ((l.map quarterLabel).dedup).insertionSort strLe ≠ [] := by
    intro h0
    have hperm := List.perm_insertionSort strLe ((l.map quarterLabel).dedup)
    rw [h0] at hperm
    have hd : (l.map quarterLabel).dedup = [] := hperm.nil_eq.symm
    rw [List.dedup_eq_nil, List.map_eq_nil_iff] at hd
    exact hl hd
  have hpairsne : quarterMeans l ≠ [] := by
    rw [hpairs]
    simpa using hksne
  obtain ⟨m, hm⟩ : ∃ m, (quarterMeans l).argmin (·.2) = some m := by
    cases harg : (quarterMeans l).argmin (·.2) with
    | none => exact absurd (List.argmin_eq_none.mp harg) hpairsne
    | some m => exact ⟨m, rfl⟩
  have hmmem : m ∈ quarterMeans l := List.argmin_mem hm
  obtain ⟨k0, hk0, hk0m⟩ :
      ∃ k0 ∈ ((l.map quarterLabel).dedup).insertionSort strLe,
        (k0, qMeanOf l k0) = m := by
    rw [hpairs] at hmmem
    simpa using List.mem_map.mp hmmem
  have hkmem : ∀ k ∈ l.map quarterLabel,
      k ∈ ((l.map quarterLabel).dedup).insertionSort strLe := by
    intro k hk
    exact (List.perm_insertionSort strLe _).mem_iff.mpr
      (List.mem_dedup.mpr hk)
  have hksmem_map : ∀ k ∈ ((l.map quarterLabel).dedup).insertionSort strLe,
      k ∈ l.map quarterLabel := by
    intro k hk
    exact List.mem_dedup.mp ((List.perm_insertionSort strLe _).mem_iff.mp hk)
  have hm2 : m.2 = qMeanOf l m.1 := by
    rw [← hk0m]
  refine ⟨m.1, ?_, ?_, ?_, ?_⟩
  · simp [getTopQuarterOverall, if_neg hl, hm]
  · rw [← hk0m]
    exact hksmem_map k0 hk0
  · intro k hk
    have hpk : (k, qMeanOf l k) ∈ quarterMeans l := by
      rw [hpairs]
      exact List.mem_map_of_mem _ (hkmem k hk)
    have hle := List.le_of_mem_argmin hpk hm
    rw [← hm2]
    exact hle
  · intro k hk heq
    have hpk : (k, qMeanOf l k) ∈ quarterMeans l := by
      rw [hpairs]
      exact List.mem_map_of_mem _ (hkmem k hk)
    have hle : (fun p : String × ℚ => p.2) (k, qMeanOf l k) ≤
        (fun p : String × ℚ => p.2) m := by
      show qMeanOf l k ≤ m.2
      rw [hm2]
      exact le_of_eq heq
    have hidx := List.index_of_argmin hm hpk hle
    have hsorted :
        (((l.map quarterLabel).dedup).insertionSort strLe).Pairwise strLe :=
      List.sorted_insertionSort strLe _
    have hpp : (quarterMeans l).Pairwise (fun x y => strLe x.1 y.1) := by
      rw [hpairs]
      exact (List.pairwise_map).mpr hsorted
    by_cases hmeq : m = (k, qMeanOf l k)
    · rw [show m.1 = k from by rw [hmeq]]
      exact strLe_refl k
    · have hi := List.indexOf_lt_length.mpr hmmem
      have hj := List.indexOf_lt_length.mpr hpk
      have hgets := List.getElem_indexOf hi
      have hgetk := List.getElem_indexOf hj
      have hlt := lt_of_le_of_ne hidx
        (fun he => hmeq ((List.indexOf_inj hmmem hpk).mp he))
      have hrel := (List.pairwise_iff_getElem.mp hpp) _ _ hi hj hlt
      rw [hgets, hgetk] at hrel
      exact hrel

/-- Witness for C9: scenario E — quarter 2025Q1 holds [10, 12, 11] and
2025Q2 holds [50, 52]; the serializer returns `"2025Q1"` and the theorem
instantiates there. -/
theorem c9_top_quarter_overall_witness :
    getTopQuarterOverall
        [⟨10, 2025, 1⟩, ⟨12, 2025, 2⟩, ⟨11, 2025, 3⟩,
          ⟨50, 2025, 4⟩, ⟨52, 2025, 5⟩] = some "2025Q1" ∧
    (∃ q, getTopQuarterOverall
        [⟨10, 2025, 1⟩, ⟨12, 2025, 2⟩, ⟨11, 2025, 3⟩,
          ⟨50, 2025, 4⟩, ⟨52, 2025, 5⟩] = some q ∧
      q ∈ ([⟨10, 2025, 1⟩, ⟨12, 2025, 2⟩, ⟨11, 2025, 3⟩,
          ⟨50, 2025, 4⟩, ⟨52, 2025, 5⟩] : List PricePoint).map
          quarterLabel ∧
      (∀ k ∈ ([⟨10, 2025, 1⟩, ⟨12, 2025, 2⟩, ⟨11, 2025, 3⟩,
          ⟨50, 2025, 4⟩, ⟨52, 2025, 5⟩] : List PricePoint).map
          quarterLabel,
        qMeanOf [⟨10, 2025, 1⟩, ⟨12, 2025, 2⟩, ⟨11, 2025, 3⟩,
          ⟨50, 2025, 4⟩, ⟨52, 2025, 5⟩] q ≤
        qMeanOf [⟨10, 2025, 1⟩, ⟨12, 2025, 2⟩, ⟨11, 2025, 3⟩,
          ⟨50, 2025, 4⟩, ⟨52, 2025, 5⟩] k) ∧
      (∀ k ∈ ([⟨10, 2025, 1⟩, ⟨12, 2025, 2⟩, ⟨11, 2025, 3⟩,
          ⟨50, 2025, 4⟩, ⟨52, 2025, 5⟩] : List PricePoint).map
          quarterLabel,
        qMeanOf [⟨10, 2025, 1⟩, ⟨12, 2025, 2⟩, ⟨11, 2025, 3⟩,
          ⟨50, 2025, 4⟩, ⟨52, 2025, 5⟩] k =
        qMeanOf [⟨10, 2025, 1⟩, ⟨12, 2025, 2⟩, ⟨11, 2025, 3⟩,
          ⟨50, 2025, 4⟩, ⟨52, 2025, 5⟩] q → strLe q k)) := by
  constructor
  · have hgr : groupsBy strLe quarterLabel
        [⟨10, 2025, 1⟩, ⟨12, 2025, 2⟩, ⟨11, 2025, 3⟩,
          ⟨50, 2025, 4⟩, ⟨52, 2025, 5⟩] =
        [("2025Q1", [10, 12, 11]), ("2025Q2", [50, 52])] := by decide
    unfold getTopQuarterOverall
    rw [if_neg (show ¬([⟨10, 2025, 1⟩, ⟨12, 2025, 2⟩, ⟨11, 2025, 3⟩,
      ⟨50, 2025, 4⟩, ⟨52, 2025, 5⟩] = ([] : List PricePoint)) by simp)]
    simp only [quarterMeans, hgr]
    norm_num [listMean, List.argmin, List.argAux, List.foldl]
  · exact c9_top_quarter_overall.2 _ (by simp)

end MarketIntel
